import Mathlib

/-!
Verification development for the MCP server template repository.

The embedding models, as executable Lean definitions:
* `Value` / `Rec` — the schema-less JavaScript record maps stored by
  `InMemoryDataService` (string / number / boolean / null field values;
  numbers are modelled as integers, which covers every value the
  repository manipulates);
* association-list primitives mirroring JavaScript `Map` semantics
  (`aget` / `aset` / `adel` / `ahas`: `Map.set` on an existing key
  replaces the value in place, on a fresh key appends);
* `jsSpread` — object spread `{...a, ...b}` semantics;
* the query pipeline of `InMemoryDataService.queryResource`
  (search, filter, stable sort, limit stages, in the source's order);
* the record-store operations `registerResource`, `createRecord`,
  `updateRecord`, `deleteRecord` (timestamps and generated ids are
  nondeterministic in the source, so they are explicit parameters);
* the dispatcher's dynamic tool registration (`MCPServer.registerTool`
  wraps the current `handleCallTool` with a name check that runs before
  the previous handler) and the unknown-tool error envelope
  (`formatErrorResponse`).

`localeCompare` is modelled as code-point comparison of the two strings
(the default-locale comparison restricted to the ASCII data the
repository handles), `toLowerCase` as per-character ASCII lowercasing,
and `Array.prototype.sort` as a stable insertion sort.
-/

namespace MCP

/-- A JavaScript field value as used by the repository's records:
strings, (integral) numbers, booleans and null. -/
inductive Value where
  | vStr (s : String)
  | vNum (n : Int)
  | vBool (b : Bool)
  | vNull
  deriving DecidableEq, Repr

/-- A schema-less record: an ordered association list of fields,
modelling a JavaScript object (`Record<string, unknown>`). -/
def Rec : Type := List (String × Value)

instance : DecidableEq Rec := by
  unfold Rec
  infer_instance

/-- `String(value)` for the modelled values (`Int.toString` agrees with
JavaScript number printing on integers). -/
def valueToString : Value → String
  | Value.vStr s => s
  | Value.vNum n => toString n
  | Value.vBool b => if b then "true" else "false"
  | Value.vNull => "null"

/-- Per-character ASCII lowercasing, modelling `String.toLowerCase`. -/
def jsToLower (s : String) : String := String.mk (s.toList.map Char.toLower)

/-- First value stored under key `k` (JavaScript property read:
`undefined`, i.e. `none`, when the key is absent). -/
def aget {α : Type} : List (String × α) → String → Option α
  | [], _ => none
  | p :: rest, k => if p.1 = k then some p.2 else aget rest k

/-- Whether the map has key `k` (`Map.has`). -/
def ahas {α : Type} (m : List (String × α)) (k : String) : Bool :=
  m.any (fun p => p.1 = k)

/-- `Map.set`: replace in place when the key exists, append otherwise. -/
def aset {α : Type} (m : List (String × α)) (k : String) (v : α) :
    List (String × α) :=
  if ahas m k then m.map (fun p => if p.1 = k then (k, v) else p)
  else m ++ [(k, v)]

/-- `Map.delete`: remove every entry stored under `k`. -/
def adel {α : Type} (m : List (String × α)) (k : String) :
    List (String × α) :=
  m.filter (fun p => ¬ p.1 = k)

/-- JavaScript object spread `{...a, ...b}`: keys of `a` in order (with
values overridden by `b` where `b` also has the key), then the keys
only `b` has, in order. -/
def jsSpread (a b : Rec) : Rec :=
  (a.map fun p =>
    match aget b p.1 with
    | some v => (p.1, v)
    | none => p) ++ b.filter (fun p => ¬ ahas a p.1)

/-- `x.orElse y` for options, written out to keep statements readable. -/
def orElseO {α : Type} (x y : Option α) : Option α :=
  match x with
  | some v => some v
  | none => y

/-- Does the first list start with the second one? -/
def listStartsWith : List Char → List Char → Bool
  | _, [] => true
  | [], _ :: _ => false
  | c :: cs, p :: ps => c = p && listStartsWith cs ps

/-- Does the second list contain the first as a contiguous infix?
Models JavaScript `String.prototype.includes` on the char level. -/
def listHasInfix (pat : List Char) : List Char → Bool
  | [] => pat.isEmpty
  | c :: cs => listStartsWith (c :: cs) pat || listHasInfix pat cs

/-- `s.includes(pat)` on the modelled strings. -/
def strContainsSub (s pat : String) : Bool := listHasInfix pat.toList s.toList

/-- Code-point three-way comparison of char lists; the model of
`String.prototype.localeCompare` restricted to the ASCII data the
repository handles (negative, zero, positive like the JS result). -/
def strCmp : List Char → List Char → Int
  | [], [] => 0
  | [], _ :: _ => -1
  | _ :: _, [] => 1
  | a :: as, b :: bs =>
    if a.toNat < b.toNat then -1
    else if b.toNat < a.toNat then 1
    else strCmp as bs

/-- `a.localeCompare(b)` as modelled here. -/
def localeCompare (a b : String) : Int := strCmp a.toList b.toList

/-- Sort direction (`'asc' | 'desc'`). -/
inductive Direction where
  | asc
  | desc
  deriving DecidableEq, Repr

/-- One entry of the `sort` array: `{ field, direction? }`
(`direction` defaults to ascending when absent). -/
structure SortSpec where
  field : String
  direction : Option Direction
  deriving DecidableEq, Repr

/-- The query map accepted by `InMemoryDataService.queryResource`.
Each component is optional exactly as in the source's dynamic checks. -/
structure Query where
  searchTerm : Option String
  fields : Option (List String)
  filter : Option (List (String × Value))
  sort : Option (List SortSpec)
  maxRecords : Option Int
  deriving Repr

/-- Does one field value match the (already lowercased) search term?
From the search stage: strings are lowercased and checked with
`includes`; numbers and booleans are stringified first; every other
value (here only `null`) never matches. -/
def searchMatchValue (term : String) : Value → Bool
  | Value.vStr s => strContainsSub (jsToLower s) term
  | Value.vNum n => strContainsSub (jsToLower (toString n)) term
  | Value.vBool b => strContainsSub (jsToLower (valueToString (Value.vBool b))) term
  | Value.vNull => false

/-- The search-stage record predicate: some entry whose key passes the
optional `fields` allowlist matches the term. -/
def searchPred (fields : Option (List String)) (term : String) (r : Rec) :
    Bool :=
  r.any fun p =>
    (match fields with
     | some fl => fl.contains p.1
     | none => true) && searchMatchValue term p.2

/-- The filter-stage record predicate: for every filter entry the
record's value at that key is strictly equal to the filter value
(an absent key never equals a present filter value). -/
def filterPred (fm : List (String × Value)) (r : Rec) : Bool :=
  fm.all fun p => decide (aget r p.1 = some p.2)

/-- The comparator passed to `records.sort(...)`: walk the sort specs;
a spec where both raw values are strictly equal defers to the next
spec; otherwise an `undefined` side decides by direction, and two
defined values decide by `localeCompare` of their string forms (the
result is returned even when it is `0`). -/
def compareRecords (specs : List SortSpec) (a b : Rec) : Int :=
  match specs with
  | [] => 0
  | sp :: rest =>
    let av := aget a sp.field
    let bv := aget b sp.field
    if av = bv then compareRecords rest a b
    else
      let asc := sp.direction.getD Direction.asc = Direction.asc
      match av, bv with
      | none, _ => if asc then -1 else 1
      | some _, none => if asc then 1 else -1
      | some x, some y =>
        let c := localeCompare (valueToString x) (valueToString y)
        if asc then c else -c

/-- Stable insertion of `x` into `l`: `x` goes in front of the first
element it compares `le` to. -/
def jsSortInsert {α : Type} (le : α → α → Bool) (x : α) : List α → List α
  | [] => [x]
  | y :: ys => if le x y then x :: y :: ys else y :: jsSortInsert le x ys

/-- Stable sort, the model of `Array.prototype.sort` with a comparator
(`le a b` meaning `comparator(a, b) <= 0`). -/
def jsSort {α : Type} (le : α → α → Bool) : List α → List α
  | [] => []
  | x :: xs => jsSortInsert le x (jsSort le xs)

/-- The boolean ordering used by the sort stage. -/
def recLE (specs : List SortSpec) (a b : Rec) : Bool :=
  decide (compareRecords specs a b ≤ 0)

/-- Search stage of `queryResource`: active only when `searchTerm` is a
non-empty string (the term is lowercased once, before the scan). -/
def searchStage (q : Query) (l : List Rec) : List Rec :=
  match q.searchTerm with
  | some term =>
    if term = "" then l else l.filter (searchPred q.fields (jsToLower term))
  | none => l

/-- Filter stage of `queryResource`. -/
def filterStage (q : Query) (l : List Rec) : List Rec :=
  match q.filter with
  | some fm => l.filter (filterPred fm)
  | none => l

/-- Sort stage of `queryResource`: active only for a non-empty `sort`
array. -/
def sortStage (q : Query) (l : List Rec) : List Rec :=
  match q.sort with
  | some specs => if specs.isEmpty then l else jsSort (recLE specs) l
  | none => l

/-- Limit stage of `queryResource`: truncates only for a positive
`maxRecords`. -/
def limitStage (q : Query) (l : List Rec) : List Rec :=
  match q.maxRecords with
  | some n => if 0 < n then l.take n.toNat else l
  | none => l

/-- The full query pipeline of `InMemoryDataService.queryResource`
over a resource's record list: search, then filter, then sort, then
limit — each stage seeing only what the earlier stages admitted. -/
def executeQuery (records : List Rec) (q : Query) : List Rec :=
  limitStage q (sortStage q (filterStage q (searchStage q records)))

/-- A registered resource (`uri`, display name, optional description). -/
structure Resource where
  uri : String
  name : String
  description : Option String
  deriving DecidableEq, Repr

/-- The in-memory service state: the `resources` map and the per-uri
record collections (`data`), both JavaScript `Map`s in insertion
order. -/
structure SvcState where
  pfxStr : String
  resources : List (String × Resource)
  data : List (String × List (String × Rec))

/-- Is `c` one of the characters `[a-z0-9]` kept by the slug regex? -/
def isSlugChar (c : Char) : Bool :=
  (97 ≤ c.toNat && c.toNat ≤ 122) || (48 ≤ c.toNat && c.toNat ≤ 57)

/-- The resource-id derivation of `registerResource`:
`name.toLowerCase().replace(/[^a-z0-9]/g, '-')` — every character of
the lowercased name that is not in `[a-z0-9]` becomes one `'-'`. -/
def deriveId (name : String) : String :=
  String.mk ((jsToLower name).toList.map fun c =>
    if isSlugChar c then c else '-')

/-- `InMemoryDataService.registerResource`: derive the uri, store the
resource and a fresh empty record map (overwriting silently on a uri
collision). -/
def registerResource (s : SvcState) (name : String)
    (description : Option String) : Resource × SvcState :=
  let uri := s.pfxStr ++ deriveId name
  let resource : Resource := ⟨uri, name, description⟩
  (resource,
    { s with
      resources := aset s.resources uri resource
      data := aset s.data uri [] })

/-- The record collection the source reads with `this.data.get(uri)!`
(the non-null assertion holds for states built by the service's own
operations, which keep `resources` and `data` keyed identically). -/
def collOf (s : SvcState) (uri : String) : List (String × Rec) :=
  (aget s.data uri).getD []

/-- `InMemoryDataService.getResource`. -/
def getResourceOp (s : SvcState) (uri : String) : Except String Resource :=
  match aget s.resources uri with
  | some r => Except.ok r
  | none => Except.error ("Resource not found: " ++ uri)

/-- `InMemoryDataService.queryResource`: validate the resource, then
run the pipeline over the collection's values in insertion order. -/
def queryResourceOp (s : SvcState) (uri : String) (q : Query) :
    Except String (List Rec) :=
  if ahas s.resources uri = false then
    Except.error ("Resource not found: " ++ uri)
  else Except.ok (executeQuery ((collOf s uri).map Prod.snd) q)

/-- The id chosen by `createRecord`: `data.id as string || uuidv4()`.
A present non-empty string id is used; an absent id, the empty string
and the other falsy values fall back to the generated id.  (Ids are
modelled as strings, following the `Map<string, ...>` element type of
the store; the generated uuid is passed in as `genId` because it is
nondeterministic in the source.) -/
def chosenId (data : Rec) (genId : String) : String :=
  match aget data "id" with
  | some (Value.vStr str) => if str = "" then genId else str
  | _ => genId

/-- `InMemoryDataService.createRecord`.  The stored record is the object
literal `{id, ...data, createdAt: t, updatedAt: t}`; `now` stands for
`new Date().toISOString()`.  Errors leave the state untouched. -/
def createRecord (s : SvcState) (uri : String) (data : Rec)
    (genId now : String) : Except String Rec × SvcState :=
  if ahas s.resources uri = false then
    (Except.error ("Resource not found: " ++ uri), s)
  else
    let id := chosenId data genId
    let record :=
      jsSpread (jsSpread (jsSpread [("id", Value.vStr id)] data)
        [("createdAt", Value.vStr now)]) [("updatedAt", Value.vStr now)]
    (Except.ok record,
      { s with data := aset s.data uri (aset (collOf s uri) id record) })

/-- `InMemoryDataService.updateRecord`.  The updated record is
`{...existingRecord, ...data, id, updatedAt: now}` — the `id` field is
re-asserted from the `id` argument and `updatedAt` is stamped after
`data` is spread; everything else (including `createdAt`) is merged
from `data` over the existing record. -/
def updateRecord (s : SvcState) (uri id : String) (data : Rec)
    (now : String) : Except String Rec × SvcState :=
  if ahas s.resources uri = false then
    (Except.error ("Resource not found: " ++ uri), s)
  else
    match aget (collOf s uri) id with
    | none => (Except.error ("Record not found: " ++ id), s)
    | some existing =>
      let updated :=
        jsSpread (jsSpread (jsSpread existing data) [("id", Value.vStr id)])
          [("updatedAt", Value.vStr now)]
      (Except.ok updated,
        { s with data := aset s.data uri (aset (collOf s uri) id updated) })

/-- `InMemoryDataService.deleteRecord`: validate, throw when the id is
absent, otherwise return `Map.delete`'s result (whether the key was
present) and the shrunken collection. -/
def deleteRecord (s : SvcState) (uri id : String) :
    Except String Bool × SvcState :=
  if ahas s.resources uri = false then
    (Except.error ("Resource not found: " ++ uri), s)
  else
    if ahas (collOf s uri) id = false then
      (Except.error ("Record not found: " ++ id), s)
    else
      (Except.ok (ahas (collOf s uri) id),
        { s with data := aset s.data uri (adel (collOf s uri) id) })

/-! ### Dispatcher model (`MCPServer`) -/

/-- The six built-in tool names handled by `handleCallTool`'s `switch`,
in listing order. -/
def builtinNames : List String :=
  ["list_records", "search_records", "get_record", "create_record",
   "update_record", "delete_record"]

/-- Where a tool invocation lands after a sequence of dynamic
registrations: one of the built-in `switch` cases, the handler
installed by the `i`-th `registerTool` call (0-based), or the
`default` branch producing the unknown-tool envelope. -/
inductive Resolution where
  | builtin (name : String)
  | dyn (index : Nat)
  | unknown
  deriving DecidableEq, Repr

/-- Dispatch of the original `handleCallTool`: the `switch` statement
over the six built-in names, with the unknown-tool `default`. -/
def baseResolve (name : String) : Resolution :=
  if builtinNames.contains name then Resolution.builtin name
  else Resolution.unknown

/-- One `registerTool` call: the new handler checks its own tool name
first and otherwise defers to the previously installed handler. -/
def regStep (h : String → Resolution) (idx : Nat) (t : String) :
    String → Resolution :=
  fun name => if name = t then Resolution.dyn idx else h name

/-- The handler obtained from `h` after registering the tools `ts` in
order, the next registration getting index `idx`. -/
def handlerFrom (h : String → Resolution) (idx : Nat) :
    List String → (String → Resolution)
  | [] => h
  | t :: ts => handlerFrom (regStep h idx t) (idx + 1) ts

/-- The effective call-tool dispatch after the dynamic registrations
`regs` (in registration order) on a freshly constructed server. -/
def handlerAfter (regs : List String) : String → Resolution :=
  handlerFrom baseResolve 0 regs

/-- A tool-call result envelope: the serialized text content and the
error flag (`formatToolResponse`). -/
structure CallToolResult where
  text : String
  isError : Bool
  deriving DecidableEq, Repr

/-- `formatErrorResponse`: wraps `Error in tool <name>: <message>` in an
error envelope. -/
def formatErrorResponse (toolName message : String) : CallToolResult :=
  ⟨"Error in tool " ++ toolName ++ ": " ++ message, true⟩

/-- A dynamically registered tool for the envelope-level model: its name
and the envelope its (validated, `safeExecute`-wrapped) handler
produces. -/
structure DynTool where
  name : String
  response : CallToolResult

/-- The base `handleCallTool` at the envelope level: built-in branches
produce whatever envelope their delegation yields (abstracted as
`builtinResp`), the `default` branch produces the unknown-tool error
envelope. -/
def baseCall (builtinResp : String → CallToolResult) (name : String) :
    CallToolResult :=
  if builtinNames.contains name then builtinResp name
  else formatErrorResponse name ("Unknown tool: " ++ name)

/-- The handler obtained from `h` after registering the tools `ts` in
order at the envelope level: each registration wraps the current
handler with a name check that runs before it. -/
def callFrom (h : String → CallToolResult) :
    List DynTool → (String → CallToolResult)
  | [] => h
  | t :: ts =>
    callFrom (fun name => if name = t.name then t.response else h name) ts

/-- The effective envelope-level dispatch after registering `regs` in
order on a freshly constructed server. -/
def callAfter (builtinResp : String → CallToolResult)
    (regs : List DynTool) : String → CallToolResult :=
  callFrom (baseCall builtinResp) regs

/-- The per-spec comparison exactly as the specification words it: an
`undefined` side sorts before a defined value when ascending and after
it when descending; two defined values compare by the locale
comparison of their string representations, with `desc` flipping the
sign. -/
def specCompare (sp : SortSpec) (a b : Rec) : Int :=
  let asc := sp.direction.getD Direction.asc = Direction.asc
  match aget a sp.field, aget b sp.field with
  | none, none => 0
  | none, some _ => if asc then -1 else 1
  | some _, none => if asc then 1 else -1
  | some x, some y =>
    if asc then localeCompare (valueToString x) (valueToString y)
    else -localeCompare (valueToString x) (valueToString y)

/-- Two records whose raw values agree at every sort spec. -/
def tiedAll (specs : List SortSpec) (a b : Rec) : Bool :=
  specs.all fun sp => decide (aget a sp.field = aget b sp.field)

/-- Helper for `specSlugCollapsed`: the flag records whether the
previous character already produced a separator for the current run. -/
def collapseRunsAux : Bool → List Char → List Char
  | _, [] => []
  | inRun, c :: rest =>
    if isSlugChar c then c :: collapseRunsAux false rest
    else if inRun then collapseRunsAux true rest
    else '-' :: collapseRunsAux true rest

/-- The uri-id derivation exactly as claim C2 words it: lowercase the
name and replace every maximal run of non-alphanumeric characters with
a single separator.  Stated for comparison with the source's
`deriveId`, which replaces every such character individually. -/
def specSlugCollapsed (name : String) : String :=
  String.mk (collapseRunsAux false (jsToLower name).toList)

end MCP

namespace MCP

/-! ### Association list lemmas -/

theorem aget_append {α : Type} (x y : List (String × α)) (k : String) :
    aget (x ++ y) k = orElseO (aget x k) (aget y k) := by
  induction x with
  | nil => simp [aget, orElseO]
  | cons p rest ih =>
    simp only [List.cons_append, aget]
    by_cases hk : p.1 = k
    · simp [hk, orElseO]
    · rw [if_neg hk, if_neg hk]
      exact ih

theorem aget_eq_none_of_ahas_false {α : Type} (m : List (String × α))
    (k : String) (h : ahas m k = false) : aget m k = none := by
  induction m with
  | nil => rfl
  | cons p rest ih =>
    simp only [ahas, List.any_cons, Bool.or_eq_false_iff,
      decide_eq_false_iff_not] at h
    simp only [aget]
    rw [if_neg h.1]
    exact ih h.2

theorem ahas_true_of_aget_some {α : Type} {m : List (String × α)}
    {k : String} {v : α} (h : aget m k = some v) : ahas m k = true := by
  induction m with
  | nil => simp [aget] at h
  | cons p rest ih =>
    simp only [aget] at h
    by_cases hk : p.1 = k
    · simp [ahas, hk]
    · rw [if_neg hk] at h
      have hr := ih h
      simp only [ahas, List.any_cons, Bool.or_eq_true]
      exact Or.inr hr

theorem aget_some_of_ahas {α : Type} {m : List (String × α)} {k : String}
    (h : ahas m k = true) : ∃ v, aget m k = some v := by
  induction m with
  | nil => simp [ahas] at h
  | cons p rest ih =>
    by_cases hk : p.1 = k
    · exact ⟨p.2, by simp [aget, hk]⟩
    · have hr : ahas rest k = true := by
        simp only [ahas, List.any_cons, Bool.or_eq_true,
          decide_eq_true_eq] at h
        rcases h with h1 | h2
        · exact absurd h1 hk
        · exact h2
      obtain ⟨v, hv⟩ := ih hr
      refine ⟨v, ?_⟩
      simp only [aget]
      rw [if_neg hk]
      exact hv

theorem aget_mapset_self {α : Type} (m : List (String × α)) (k : String)
    (v : α) (h : ahas m k = true) :
    aget (m.map (fun p => if p.1 = k then (k, v) else p)) k = some v := by
  induction m with
  | nil => simp [ahas] at h
  | cons p rest ih =>
    by_cases hk : p.1 = k
    · simp [List.map_cons, hk, aget]
    · have hr : ahas rest k = true := by
        simp only [ahas, List.any_cons, Bool.or_eq_true,
          decide_eq_true_eq] at h
        rcases h with h1 | h2
        · exact absurd h1 hk
        · exact h2
      simp only [List.map_cons, if_neg hk, aget]
      exact ih hr

theorem aget_aset_self {α : Type} (m : List (String × α)) (k : String)
    (v : α) : aget (aset m k v) k = some v := by
  unfold aset
  cases h : ahas m k with
  | true =>
    rw [if_pos rfl]
    exact aget_mapset_self m k v h
  | false =>
    rw [if_neg (by simp)]
    rw [aget_append, aget_eq_none_of_ahas_false m k h]
    simp [orElseO, aget]

theorem aget_mapset_ne {α : Type} (m : List (String × α)) (k k' : String)
    (v : α) (hne : k' ≠ k) :
    aget (m.map (fun p => if p.1 = k then (k, v) else p)) k' = aget m k' := by
  induction m with
  | nil => rfl
  | cons p rest ih =>
    by_cases hk : p.1 = k
    · simp only [List.map_cons, if_pos hk, aget]
      rw [if_neg (fun hh : k = k' => hne hh.symm),
        if_neg (fun hh : p.1 = k' => hne (hh ▸ hk))]
      exact ih
    · simp only [List.map_cons, if_neg hk, aget]
      by_cases hk' : p.1 = k'
      · simp [hk']
      · rw [if_neg hk', if_neg hk']
        exact ih

theorem aget_aset_ne {α : Type} (m : List (String × α)) (k k' : String)
    (v : α) (hne : k' ≠ k) : aget (aset m k v) k' = aget m k' := by
  unfold aset
  cases h : ahas m k with
  | true =>
    rw [if_pos rfl]
    exact aget_mapset_ne m k k' v hne
  | false =>
    rw [if_neg (by simp)]
    rw [aget_append]
    have h1 : aget [(k, v)] k' = none := by
      simp only [aget]
      rw [if_neg (fun hh : k = k' => hne hh.symm)]
    rw [h1]
    cases hm : aget m k' <;> simp [orElseO]

theorem aset_keys_of_ahas {α : Type} (m : List (String × α)) (k : String)
    (v : α) (h : ahas m k = true) :
    (aset m k v).map Prod.fst = m.map Prod.fst := by
  unfold aset
  rw [if_pos h, List.map_map]
  apply List.map_congr_left
  intro p _
  by_cases hk : p.1 = k
  · simp [hk, Function.comp]
  · simp [hk, Function.comp]

theorem aset_length_of_ahas {α : Type} (m : List (String × α)) (k : String)
    (v : α) (h : ahas m k = true) : (aset m k v).length = m.length := by
  unfold aset
  rw [if_pos h, List.length_map]

theorem ahas_adel_self {α : Type} (m : List (String × α)) (k : String) :
    ahas (adel m k) k = false := by
  unfold adel ahas
  rw [Bool.eq_false_iff]
  intro hc
  simp only [List.any_eq_true, List.mem_filter, decide_eq_true_eq] at hc
  obtain ⟨p, ⟨_, hp⟩, hk⟩ := hc
  exact (by simpa using hp : ¬ p.1 = k) hk

theorem aget_adel_self {α : Type} (m : List (String × α)) (k : String) :
    aget (adel m k) k = none :=
  aget_eq_none_of_ahas_false _ _ (ahas_adel_self m k)

theorem aget_adel_ne {α : Type} (m : List (String × α)) (k k' : String)
    (hne : k' ≠ k) : aget (adel m k) k' = aget m k' := by
  induction m with
  | nil => rfl
  | cons p rest ih =>
    simp only [adel, List.filter_cons] at ih ⊢
    by_cases hk : p.1 = k
    · rw [if_neg (by simp [hk])]
      have hpk' : ¬ p.1 = k' := fun hh => hne (hh ▸ hk ▸ rfl)
      conv_rhs => rw [aget, if_neg hpk']
      exact ih
    · rw [if_pos (by simp [hk])]
      simp only [aget]
      by_cases hk' : p.1 = k'
      · simp [hk']
      · rw [if_neg hk', if_neg hk']
        exact ih

theorem aget_map_keyed {α : Type} (f : String → α → α)
    (a : List (String × α)) (k : String) :
    aget (a.map fun p => (p.1, f p.1 p.2)) k = (aget a k).map (f k) := by
  induction a with
  | nil => rfl
  | cons p rest ih =>
    simp only [List.map_cons, aget]
    by_cases hk : p.1 = k
    · subst hk; simp
    · rw [if_neg hk, if_neg hk, ih]

theorem aget_filter_keyed {α : Type} (q : String → Bool)
    (b : List (String × α)) (k : String) (hq : q k = true) :
    aget (b.filter fun p => q p.1) k = aget b k := by
  induction b with
  | nil => rfl
  | cons p rest ih =>
    simp only [List.filter_cons]
    by_cases hk : p.1 = k
    · subst hk
      rw [if_pos hq]
      simp [aget, ih]
    · by_cases hqp : q p.1
      · rw [if_pos hqp]
        simp only [aget]
        rw [if_neg hk, if_neg hk]
        exact ih
      · rw [if_neg hqp]
        rw [ih]
        simp only [aget]
        rw [if_neg hk]

theorem getField_jsSpread (a b : Rec) (k : String) :
    aget (jsSpread a b) k = orElseO (aget b k) (aget a k) := by
  have hmap : (a.map fun p =>
      match aget b p.1 with
      | some v => (p.1, v)
      | none => p) =
      a.map fun p => (p.1, match aget b p.1 with
        | some v => v
        | none => p.2) := by
    apply List.map_congr_left
    intro p _
    cases hv : aget b p.1 <;> simp [hv]
  unfold jsSpread
  rw [hmap, aget_append]
  rw [aget_map_keyed (fun key v => match aget b key with
    | some w => w
    | none => v) a k]
  cases hhas : ahas a k with
  | true =>
    obtain ⟨v, hv⟩ := aget_some_of_ahas hhas
    rw [hv]
    cases hb : aget b k <;> simp [orElseO, hb]
  | false =>
    rw [aget_eq_none_of_ahas_false a k hhas]
    have : aget (b.filter fun p => ¬ ahas a p.1) k = aget b k := by
      have := aget_filter_keyed (fun key => !(ahas a key)) b k (by simp [hhas])
      simpa using this
    simp only [Option.map_none']
    rw [this]
    cases hb : aget b k <;> simp [orElseO, hb]

/-! ### Sorting lemmas -/

theorem jsSortInsert_perm {α : Type} (le : α → α → Bool) (x : α)
    (l : List α) : (jsSortInsert le x l).Perm (x :: l) := by
  induction l with
  | nil => exact List.Perm.refl _
  | cons y ys ih =>
    unfold jsSortInsert
    by_cases h : le x y
    · rw [if_pos h]
    · rw [if_neg h]
      exact (ih.cons y).trans (List.Perm.swap x y ys)

theorem jsSort_perm {α : Type} (le : α → α → Bool) (l : List α) :
    (jsSort le l).Perm l := by
  induction l with
  | nil => exact List.Perm.refl _
  | cons x xs ih =>
    unfold jsSort
    exact (jsSortInsert_perm le x (jsSort le xs)).trans (ih.cons x)

theorem jsSortInsert_head {α : Type} (le : α → α → Bool) (x : α)
    (l : List α) :
    (jsSortInsert le x l).head? = some x ∨
      (jsSortInsert le x l).head? = l.head? := by
  cases l with
  | nil => left; rfl
  | cons y ys =>
    unfold jsSortInsert
    by_cases h : le x y
    · left
      rw [if_pos h]
      rfl
    · right
      rw [if_neg h]
      rfl

theorem chain'_jsSortInsert {α : Type} (le : α → α → Bool)
    (htot : ∀ a b, le a b = true ∨ le b a = true) (x : α) :
    ∀ l : List α, List.Chain' (fun a b => le a b = true) l →
      List.Chain' (fun a b => le a b = true) (jsSortInsert le x l)
  | [], _ => List.chain'_singleton x
  | y :: ys, hl => by
    unfold jsSortInsert
    by_cases h : le x y
    · rw [if_pos h]
      exact hl.cons h
    · rw [if_neg h]
      have hyx : le y x = true :=
        Or.resolve_left (htot x y) (by simpa using h)
      apply List.chain'_cons'.mpr
      refine ⟨?_, chain'_jsSortInsert le htot x ys
        (List.chain'_cons'.mp hl).2⟩
      intro hd hhd
      rcases jsSortInsert_head le x ys with hc | hc
      · rw [hc] at hhd
        cases hhd
        exact hyx
      · rw [hc] at hhd
        exact (List.chain'_cons'.mp hl).1 hd hhd

theorem chain'_jsSort {α : Type} (le : α → α → Bool)
    (htot : ∀ a b, le a b = true ∨ le b a = true) :
    ∀ l : List α, List.Chain' (fun a b => le a b = true) (jsSort le l)
  | [] => List.chain'_nil
  | x :: xs => chain'_jsSortInsert le htot x _ (chain'_jsSort le htot xs)

theorem jsSort_eq_self_of_chain' {α : Type} (le : α → α → Bool) :
    ∀ l : List α, List.Chain' (fun a b => le a b = true) l →
      jsSort le l = l
  | [], _ => rfl
  | [x], _ => rfl
  | x :: y :: ys, h => by
    have h1 : le x y = true := (List.chain'_cons.mp h).1
    have h2 := (List.chain'_cons.mp h).2
    show jsSortInsert le x (jsSort le (y :: ys)) = x :: y :: ys
    rw [jsSort_eq_self_of_chain' le (y :: ys) h2]
    unfold jsSortInsert
    rw [if_pos h1]

/-- Sorting a second time changes nothing: the model of
`Array.prototype.sort` is idempotent for any total comparator. -/
theorem jsSort_idem {α : Type} (le : α → α → Bool)
    (htot : ∀ a b, le a b = true ∨ le b a = true) (l : List α) :
    jsSort le (jsSort le l) = jsSort le l :=
  jsSort_eq_self_of_chain' le _ (chain'_jsSort le htot l)

theorem filter_jsSortInsert_pos {α : Type} (le : α → α → Bool)
    (p : α → Bool) (x : α) (hx : p x = true) :
    ∀ l : List α, (∀ y ∈ l, p y = true → le x y = true) →
      (jsSortInsert le x l).filter p = x :: l.filter p
  | [], _ => by simp [jsSortInsert, hx]
  | y :: ys, hle => by
    unfold jsSortInsert
    by_cases h : le x y
    · rw [if_pos h]
      simp [List.filter_cons, hx]
    · rw [if_neg h]
      have hpy : p y = false := by
        cases hpy : p y with
        | true => exact absurd (hle y (by simp) hpy) (by simpa using h)
        | false => rfl
      rw [List.filter_cons, if_neg (by simp [hpy])]
      rw [filter_jsSortInsert_pos le p x hx ys
        (fun z hz hpz => hle z (by simp [hz]) hpz)]
      rw [List.filter_cons, if_neg (by simp [hpy])]

theorem filter_jsSortInsert_neg {α : Type} (le : α → α → Bool)
    (p : α → Bool) (x : α) (hx : p x = false) :
    ∀ l : List α, (jsSortInsert le x l).filter p = l.filter p
  | [] => by simp [jsSortInsert, hx]
  | y :: ys => by
    unfold jsSortInsert
    by_cases h : le x y
    · rw [if_pos h]
      simp [List.filter_cons, hx]
    · rw [if_neg h]
      rw [List.filter_cons, List.filter_cons,
        filter_jsSortInsert_neg le p x hx ys]

/-- Stability of the sort model, in filter form: a class of records that
are pairwise `le`-below each other comes out of the sort in its
original relative order. -/
theorem filter_jsSort {α : Type} (le : α → α → Bool) (p : α → Bool)
    (hp : ∀ a b, p a = true → p b = true → le a b = true) :
    ∀ l : List α, (jsSort le l).filter p = l.filter p
  | [] => rfl
  | x :: xs => by
    show (jsSortInsert le x (jsSort le xs)).filter p = _
    cases hx : p x with
    | true =>
      rw [filter_jsSortInsert_pos le p x hx (jsSort le xs)
        (fun y _ hpy => hp x y hx hpy)]
      rw [filter_jsSort le p hp xs]
      rw [List.filter_cons, if_pos (by simp [hx])]
    | false =>
      rw [filter_jsSortInsert_neg le p x hx (jsSort le xs)]
      rw [filter_jsSort le p hp xs]
      rw [List.filter_cons, if_neg (by simp [hx])]

/-! ### Comparator lemmas -/

theorem strCmp_antisymm : ∀ a b, strCmp b a = -strCmp a b
  | [], [] => rfl
  | [], _ :: _ => rfl
  | _ :: _, [] => rfl
  | a :: as, b :: bs => by
    unfold strCmp
    rcases Nat.lt_trichotomy a.toNat b.toNat with h | h | h
    · rw [if_neg (Nat.lt_asymm h), if_pos h, if_pos h]
      decide
    · have h1 : ¬ a.toNat < b.toNat := by omega
      have h2 : ¬ b.toNat < a.toNat := by omega
      rw [if_neg h2, if_neg h1, if_neg h1, if_neg h2]
      exact strCmp_antisymm as bs
    · rw [if_pos h, if_neg (Nat.lt_asymm h), if_pos h]

theorem localeCompare_antisymm (a b : String) :
    localeCompare b a = -localeCompare a b :=
  strCmp_antisymm a.toList b.toList

theorem compareRecords_antisymm :
    ∀ specs (a b : Rec), compareRecords specs b a = -compareRecords specs a b
  | [], _, _ => rfl
  | sp :: rest, a, b => by
    unfold compareRecords
    by_cases heq : aget a sp.field = aget b sp.field
    · rw [if_pos heq, if_pos heq.symm]
      exact compareRecords_antisymm rest a b
    · rw [if_neg heq, if_neg (fun hh => heq hh.symm)]
      cases hav : aget a sp.field with
      | none =>
        cases hbv : aget b sp.field with
        | none => exact absurd (hav.trans hbv.symm) heq
        | some y =>
          by_cases hasc : sp.direction.getD Direction.asc = Direction.asc <;>
            simp [hasc]
      | some x =>
        cases hbv : aget b sp.field with
        | none =>
          by_cases hasc : sp.direction.getD Direction.asc = Direction.asc <;>
            simp [hasc]
        | some y =>
          by_cases hasc : sp.direction.getD Direction.asc = Direction.asc <;>
            simp [hasc, localeCompare_antisymm (valueToString x) (valueToString y)]

/-- The boolean ordering fed to the sort is total. -/
theorem recLE_total (specs : List SortSpec) (a b : Rec) :
    recLE specs a b = true ∨ recLE specs b a = true := by
  unfold recLE
  rcases le_or_lt (compareRecords specs a b) 0 with h | h
  · left
    exact decide_eq_true h
  · right
    apply decide_eq_true
    rw [compareRecords_antisymm]
    omega

/-! ### Pipeline stage lemmas -/

theorem mem_searchStage {q : Query} {l : List Rec} {x : Rec}
    (h : x ∈ searchStage q l) : x ∈ l := by
  cases hq : q.searchTerm with
  | none =>
    simp only [searchStage, hq] at h
    exact h
  | some term =>
    simp only [searchStage, hq] at h
    by_cases ht : term = ""
    · rw [if_pos ht] at h; exact h
    · rw [if_neg ht] at h
      exact (List.mem_filter.mp h).1

theorem mem_filterStage {q : Query} {l : List Rec} {x : Rec}
    (h : x ∈ filterStage q l) : x ∈ l := by
  cases hq : q.filter with
  | none =>
    simp only [filterStage, hq] at h
    exact h
  | some fm =>
    simp only [filterStage, hq] at h
    exact (List.mem_filter.mp h).1

theorem mem_sortStage {q : Query} {l : List Rec} {x : Rec}
    (h : x ∈ sortStage q l) : x ∈ l := by
  cases hq : q.sort with
  | none =>
    simp only [sortStage, hq] at h
    exact h
  | some specs =>
    simp only [sortStage, hq] at h
    by_cases he : specs.isEmpty
    · rw [if_pos he] at h; exact h
    · rw [if_neg he] at h
      exact (jsSort_perm (recLE specs) l).mem_iff.mp h

theorem searchStage_of_subset {q : Query} {l m : List Rec}
    (hsub : ∀ x ∈ m, x ∈ searchStage q l) : searchStage q m = m := by
  cases hq : q.searchTerm with
  | none => simp only [searchStage, hq]
  | some term =>
    simp only [searchStage, hq] at hsub ⊢
    by_cases ht : term = ""
    · rw [if_pos ht]
    · rw [if_neg ht] at hsub ⊢
      apply List.filter_eq_self.mpr
      intro x hx
      exact (List.mem_filter.mp (hsub x hx)).2

theorem filterStage_of_subset {q : Query} {l m : List Rec}
    (hsub : ∀ x ∈ m, x ∈ filterStage q l) : filterStage q m = m := by
  cases hq : q.filter with
  | none => simp only [filterStage, hq]
  | some fm =>
    simp only [filterStage, hq] at hsub ⊢
    apply List.filter_eq_self.mpr
    intro x hx
    exact (List.mem_filter.mp (hsub x hx)).2

theorem sortStage_idem (q : Query) (l : List Rec) :
    sortStage q (sortStage q l) = sortStage q l := by
  cases hq : q.sort with
  | none => simp only [sortStage, hq]
  | some specs =>
    simp only [sortStage, hq]
    by_cases he : specs.isEmpty
    · rw [if_pos he, if_pos he]
    · rw [if_neg he, if_neg he]
      exact jsSort_idem (recLE specs) (recLE_total specs) l

theorem limitStage_of_none {q : Query} (h : q.maxRecords = none)
    (l : List Rec) : limitStage q l = l := by
  simp only [limitStage, h]

/-- The pipeline with the limit absent is idempotent. -/
theorem executeQuery_idem (R : List Rec) (q : Query)
    (h : q.maxRecords = none) :
    executeQuery (executeQuery R q) q = executeQuery R q := by
  unfold executeQuery
  rw [limitStage_of_none h, limitStage_of_none h]
  have hmem : ∀ x ∈ sortStage q (filterStage q (searchStage q R)),
      x ∈ filterStage q (searchStage q R) := fun x hx => mem_sortStage hx
  have h1 : searchStage q (sortStage q (filterStage q (searchStage q R))) =
      sortStage q (filterStage q (searchStage q R)) :=
    searchStage_of_subset (fun x hx => mem_filterStage (hmem x hx))
  rw [h1]
  have h2 : filterStage q (sortStage q (filterStage q (searchStage q R))) =
      sortStage q (filterStage q (searchStage q R)) :=
    filterStage_of_subset hmem
  rw [h2, sortStage_idem]

/-! ### First-differing-spec characterization of the comparator -/

/-- The source comparator is decided by the first sort spec at which the
two records' raw values differ (and is `0` when no spec separates
them). -/
theorem compareRecords_eq_firstDiff :
    ∀ specs (a b : Rec),
      compareRecords specs a b =
        match specs.find? (fun sp => decide (aget a sp.field ≠ aget b sp.field)) with
        | some sp => specCompare sp a b
        | none => 0
  | [], _, _ => rfl
  | sp :: rest, a, b => by
    by_cases heq : aget a sp.field = aget b sp.field
    · rw [List.find?_cons_of_neg _ (by simpa using heq)]
      unfold compareRecords
      rw [if_pos heq]
      exact compareRecords_eq_firstDiff rest a b
    · rw [List.find?_cons_of_pos _ (by simpa using heq)]
      unfold compareRecords
      rw [if_neg heq]
      cases hav : aget a sp.field with
      | none =>
        cases hbv : aget b sp.field with
        | none => exact absurd (hav.trans hbv.symm) heq
        | some y => simp [specCompare, hav, hbv]
      | some x =>
        cases hbv : aget b sp.field with
        | none => simp [specCompare, hav, hbv]
        | some y => simp [specCompare, hav, hbv]

theorem compareRecords_eq_zero_of_tied :
    ∀ specs (a b : Rec),
      (∀ sp ∈ specs, aget a sp.field = aget b sp.field) →
      compareRecords specs a b = 0
  | [], _, _, _ => rfl
  | sp :: rest, a, b, h => by
    unfold compareRecords
    rw [if_pos (h sp (by simp))]
    exact compareRecords_eq_zero_of_tied rest a b
      (fun u hu => h u (by simp [hu]))

/-! ### Dispatcher lemmas -/

theorem handlerFrom_not_mem (name : String) :
    ∀ (ts : List String) (h : String → Resolution) (idx : Nat),
      (∀ t ∈ ts, name ≠ t) → handlerFrom h idx ts name = h name
  | [], _, _, _ => rfl
  | t :: ts, h, idx, hmem => by
    unfold handlerFrom
    rw [handlerFrom_not_mem name ts _ _
      (fun u hu => hmem u (by simp [hu]))]
    unfold regStep
    rw [if_neg (hmem t (by simp))]

theorem handlerFrom_append (name t : String) :
    ∀ (ts : List String) (h : String → Resolution) (idx : Nat),
      handlerFrom h idx (ts ++ [t]) name =
        if name = t then Resolution.dyn (idx + ts.length)
        else handlerFrom h idx ts name
  | [], h, idx => by
    simp [handlerFrom, regStep]
  | u :: us, h, idx => by
    show handlerFrom (regStep h idx u) (idx + 1) (us ++ [t]) name = _
    rw [handlerFrom_append name t us (regStep h idx u) (idx + 1)]
    have harith : idx + 1 + us.length = idx + (u :: us).length := by
      simp [List.length_cons]
      omega
    rw [harith]
    rfl

theorem callFrom_not_mem (name : String) :
    ∀ (ts : List DynTool) (h : String → CallToolResult),
      (∀ t ∈ ts, t.name ≠ name) → callFrom h ts name = h name
  | [], _, _ => rfl
  | t :: ts, h, hmem => by
    unfold callFrom
    rw [callFrom_not_mem name ts _
      (fun u hu => hmem u (by simp [hu]))]
    rw [if_neg (fun hh : name = t.name => hmem t (by simp) hh.symm)]

/-! ### Substring lemmas -/

theorem listStartsWith_append_self :
    ∀ (pat b : List Char), listStartsWith (pat ++ b) pat = true
  | [], b => by cases b <;> rfl
  | c :: cs, b => by
    show (decide (c = c) && listStartsWith (cs ++ b) cs) = true
    rw [listStartsWith_append_self cs b]
    simp

theorem listHasInfix_nil_pat : ∀ s : List Char, listHasInfix [] s = true
  | [] => rfl
  | _ :: _ => rfl

theorem listHasInfix_append_self :
    ∀ (x pat y : List Char), listHasInfix pat (x ++ pat ++ y) = true
  | [], pat, y => by
    cases hp : pat with
    | nil => exact listHasInfix_nil_pat y
    | cons c cs =>
      show listHasInfix (c :: cs) ((c :: cs) ++ y) = true
      show (listStartsWith ((c :: cs) ++ y) (c :: cs) || _) = true
      rw [listStartsWith_append_self (c :: cs) y]
      rfl
  | c :: x, pat, y => by
    show (listStartsWith ((c :: x) ++ pat ++ y) pat ||
      listHasInfix pat (x ++ pat ++ y)) = true
    rw [listHasInfix_append_self x pat y]
    simp

/-- A string of the shape `x ++ pat ++ y` contains `pat`. -/
theorem strContainsSub_of_split (s pat : String) (u v : List Char)
    (h : s.toList = u ++ pat.toList ++ v) : strContainsSub s pat = true := by
  unfold strContainsSub
  rw [h]
  exact listHasInfix_append_self u pat.toList v

end MCP

namespace MCP

/-! ## Claim theorems -/

/-- Claim C1, counterexample: registering a dynamic tool named
`list_records` makes invocation of `list_records` dispatch to the
dynamic tool (registration index 0), not to the earlier-registered
built-in — later registrations shadow earlier ones. -/
theorem C1_counterexample :
    handlerAfter ["list_records"] "list_records" = Resolution.dyn 0 ∧
    Resolution.dyn 0 ≠ Resolution.builtin "list_records" := by
  constructor
  · rfl
  · decide

/-- Claim C1, amended: the six built-in tools keep resolving after any
sequence of dynamic registrations **whose names avoid theirs**; in
general, invocation dispatches to the **most recently** registered tool
with a matching name — each new registration wraps the previous handler
with a name check that runs first, so later registrations (not earlier
ones) take precedence, and a built-in resolves only when no dynamic
registration shares its name. -/
theorem C1_dispatch_later_shadows :
    (∀ (regs : List String) (name : String),
      builtinNames.contains name = true → name ∉ regs →
      handlerAfter regs name = Resolution.builtin name) ∧
    (∀ (regs : List String) (t : String),
      handlerAfter (regs ++ [t]) t = Resolution.dyn regs.length) ∧
    (∀ (regs : List String) (t name : String), name ≠ t →
      handlerAfter (regs ++ [t]) name = handlerAfter regs name) := by
  refine ⟨?_, ?_, ?_⟩
  · intro regs name hb hnm
    unfold handlerAfter
    rw [handlerFrom_not_mem name regs baseResolve 0
      (fun u hu hh => hnm (hh ▸ hu))]
    unfold baseResolve
    rw [if_pos hb]
  · intro regs t
    unfold handlerAfter
    rw [handlerFrom_append t t regs baseResolve 0, if_pos rfl,
      Nat.zero_add]
  · intro regs t name hne
    unfold handlerAfter
    rw [handlerFrom_append name t regs baseResolve 0, if_neg hne]

/-- Witness for C1 (amended) at concrete inputs. -/
theorem C1_dispatch_later_shadows_witness :
    handlerAfter ["find_books_by_author"] "get_record" =
      Resolution.builtin "get_record" ∧
    handlerAfter ["find_books_by_author"] "find_books_by_author" =
      Resolution.dyn 0 := by
  constructor
  · exact C1_dispatch_later_shadows.1 ["find_books_by_author"]
      "get_record" (by decide) (by decide)
  · have h := C1_dispatch_later_shadows.2.1 [] "find_books_by_author"
    simpa using h

/-- Claim C2, counterexample: for the name `"a  b"` (two adjacent spaces)
the source derives `mcp://a--b` — two separators, one per
non-alphanumeric character — which differs from the claim's
run-collapsed `mcp://a-b`. -/
theorem C2_counterexample :
    (registerResource ⟨"mcp://", [], []⟩ "a  b" none).1.uri =
      "mcp://a--b" ∧
    (registerResource ⟨"mcp://", [], []⟩ "a  b" none).1.uri ≠
      "mcp://" ++ specSlugCollapsed "a  b" := by
  constructor
  · rfl
  · decide

/-- Claim C2, amended: `registerResource` derives the resource uri by
lowercasing the name and replacing **each individual** non-alphanumeric
character with one separator (so a run of k such characters yields k
separators and the derived id always has the same length as the name),
prefixed by the configured scheme; the resource is stored under that
uri. -/
theorem C2_uri_per_char (s : SvcState) (name : String)
    (d : Option String) :
    (registerResource s name d).1.uri = s.pfxStr ++ deriveId name ∧
    (deriveId name).length = name.length ∧
    aget (registerResource s name d).2.resources
        ((registerResource s name d).1.uri) =
      some (registerResource s name d).1 := by
  refine ⟨rfl, ?_, ?_⟩
  · have h1 : ∀ l : List Char, (String.mk l).length = l.length :=
      fun _ => rfl
    have h2 : ∀ l : List Char, (String.mk l).toList = l := fun _ => rfl
    unfold deriveId jsToLower
    rw [h1, h2, List.length_map, List.length_map]
    rfl
  · exact aget_aset_self _ _ _

/-- Claim C3, counterexample: updating record `u1` (created with
`createdAt = "T0"`) with caller data `{createdAt: "EVIL"}` yields a
record whose `createdAt` is the caller's value `"EVIL"` — neither the
stored `"T0"` nor the fresh stamp `"T1"` — so `createdAt` **is**
caller-settable on update, contrary to the claim. -/
theorem C3_counterexample :
    (updateRecord
        (createRecord (registerResource ⟨"mcp://", [], []⟩ "users" none).2
          "mcp://users" [("id", Value.vStr "u1")] "gen" "T0").2
        "mcp://users" "u1" [("createdAt", Value.vStr "EVIL")] "T1").1.map
      (fun r => aget r "createdAt") =
      Except.ok (some (Value.vStr "EVIL")) ∧
    some (Value.vStr "EVIL") ≠ some (Value.vStr "T0") ∧
    some (Value.vStr "EVIL") ≠ some (Value.vStr "T1") := by
  refine ⟨?_, by decide, by decide⟩
  rfl

/-- Claim C3, amended: for every existing record, a successful
`updateRecord` returns a record whose `id` equals the update's id
argument (the original record's key, even if `data` carries a
different id) and whose `updatedAt` is stamped by the store after
`data` is merged; `createdAt`, however, is only preserved from the
existing record when the caller's `data` does **not** supply it — a
caller-supplied `createdAt` value overrides the stored one. -/
theorem C3_update_id_updatedAt (s : SvcState) (uri id : String)
    (data : Rec) (now : String) (existing : Rec)
    (hres : ahas s.resources uri = true)
    (hex : aget (collOf s uri) id = some existing) :
    ∀ (r : Rec) (s' : SvcState),
      updateRecord s uri id data now = (Except.ok r, s') →
      aget r "id" = some (Value.vStr id) ∧
      aget r "updatedAt" = some (Value.vStr now) ∧
      (aget data "createdAt" = none →
        aget r "createdAt" = aget existing "createdAt") := by
  intro r s' h
  unfold updateRecord at h
  rw [hres] at h
  rw [if_neg (by simp)] at h
  rw [hex] at h
  simp only [Prod.mk.injEq, Except.ok.injEq] at h
  have hr : r = jsSpread (jsSpread (jsSpread existing data)
      [("id", Value.vStr id)]) [("updatedAt", Value.vStr now)] :=
    h.1.symm
  subst hr
  refine ⟨?_, ?_, ?_⟩
  · rw [getField_jsSpread, getField_jsSpread]
    rfl
  · rw [getField_jsSpread]
    rfl
  · intro hd
    rw [getField_jsSpread, getField_jsSpread, getField_jsSpread, hd]
    rfl

/-- Witness for C3 (amended) at concrete inputs. -/
theorem C3_update_id_updatedAt_witness :
    aget (jsSpread (jsSpread (jsSpread
        [("id", Value.vStr "u1"), ("createdAt", Value.vStr "T0")]
        [("x", Value.vNum 7)]) [("id", Value.vStr "u1")])
        [("updatedAt", Value.vStr "T1")]) "id" =
      some (Value.vStr "u1") := by
  have h := C3_update_id_updatedAt
    ⟨"mcp://",
      [("mcp://users", ⟨"mcp://users", "users", none⟩)],
      [("mcp://users",
        [("u1", [("id", Value.vStr "u1"), ("createdAt", Value.vStr "T0")])])]⟩
    "mcp://users" "u1" [("x", Value.vNum 7)] "T1"
    [("id", Value.vStr "u1"), ("createdAt", Value.vStr "T0")]
    (by decide) (by decide)
  exact (h _ _ rfl).1

/-- Claim C4: the query pipeline with no search term, no filter, no sort
and no limit returns the record collection unchanged (in its original
order), and for every query whose limit is absent the pipeline is
idempotent: running it on its own output reproduces that output. -/
theorem C4_pipeline_identity_idempotent (R : List Rec) :
    (∀ fl, executeQuery R (Query.mk none fl none none none) = R) ∧
    ∀ q : Query, q.maxRecords = none →
      executeQuery (executeQuery R q) q = executeQuery R q := by
  constructor
  · intro fl
    rfl
  · exact fun q hq => executeQuery_idem R q hq

/-- Witness for C4 at concrete inputs (a search-and-sort query with the
limit absent). -/
theorem C4_pipeline_identity_idempotent_witness :
    executeQuery [[("id", Value.vStr "u1")]]
        (Query.mk none none none none none) = [[("id", Value.vStr "u1")]] ∧
    executeQuery
        (executeQuery [[("id", Value.vStr "u2")], [("id", Value.vStr "u1")]]
          (Query.mk (some "u") none none
            (some [⟨"id", some Direction.asc⟩]) none))
        (Query.mk (some "u") none none
          (some [⟨"id", some Direction.asc⟩]) none) =
      executeQuery [[("id", Value.vStr "u2")], [("id", Value.vStr "u1")]]
        (Query.mk (some "u") none none
          (some [⟨"id", some Direction.asc⟩]) none) := by
  constructor
  · exact (C4_pipeline_identity_idempotent [[("id", Value.vStr "u1")]]).1 none
  · exact (C4_pipeline_identity_idempotent
      [[("id", Value.vStr "u2")], [("id", Value.vStr "u1")]]).2
      (Query.mk (some "u") none none
        (some [⟨"id", some Direction.asc⟩]) none) rfl

/-- Claim C5: for a non-empty sort-spec list the sort stage (i) runs the
stable sort under the comparator; (ii) the comparator decides every
record pair at the first spec where their raw values differ — an
`undefined` side sorting before a defined value when ascending and
after it when descending, defined values comparing by locale-aware
string comparison of their string representations with `desc` flipping
the sign (`specCompare` states exactly that wording); (iii) the output
is a permutation of the input, (iv) consecutive output records are in
comparator order, and (v) records whose values agree at every spec
keep their pre-sort relative order (stability). -/
theorem C5_sort_semantics (specs : List SortSpec) (hne : specs ≠ [])
    (l : List Rec) :
    executeQuery l (Query.mk none none none (some specs) none) =
      jsSort (recLE specs) l ∧
    (∀ a b : Rec, compareRecords specs a b =
      match specs.find?
        (fun sp => decide (aget a sp.field ≠ aget b sp.field)) with
      | some sp => specCompare sp a b
      | none => 0) ∧
    (jsSort (recLE specs) l).Perm l ∧
    List.Chain' (fun a b => compareRecords specs a b ≤ 0)
      (jsSort (recLE specs) l) ∧
    ∀ r0 : Rec,
      (jsSort (recLE specs) l).filter (fun x => tiedAll specs x r0) =
        l.filter (fun x => tiedAll specs x r0) := by
  have hemp : specs.isEmpty = false := by
    cases specs with
    | nil => exact absurd rfl hne
    | cons sp rest => rfl
  refine ⟨?_, ?_, ?_, ?_, ?_⟩
  · show limitStage _ (sortStage _ (filterStage _ (searchStage _ l))) = _
    simp only [searchStage, filterStage, sortStage, limitStage, hemp]
    rw [if_neg (by simp)]
  · exact fun a b => compareRecords_eq_firstDiff specs a b
  · exact jsSort_perm (recLE specs) l
  · exact (chain'_jsSort (recLE specs) (recLE_total specs) l).imp
      (fun a b hab => of_decide_eq_true hab)
  · intro r0
    apply filter_jsSort
    intro a b ha hb
    apply decide_eq_true
    have hza : ∀ sp ∈ specs, aget a sp.field = aget r0 sp.field :=
      fun sp hsp => of_decide_eq_true (List.all_eq_true.mp ha sp hsp)
    have hzb : ∀ sp ∈ specs, aget b sp.field = aget r0 sp.field :=
      fun sp hsp => of_decide_eq_true (List.all_eq_true.mp hb sp hsp)
    have h0 : compareRecords specs a b = 0 :=
      compareRecords_eq_zero_of_tied specs a b
        (fun sp hsp => (hza sp hsp).trans (hzb sp hsp).symm)
    rw [h0]

/-- Witness for C5 at concrete inputs. -/
theorem C5_sort_semantics_witness :
    executeQuery
        [[("id", Value.vStr "u2")], [("id", Value.vStr "u1")]]
        (Query.mk none none none (some [⟨"id", none⟩]) none) =
      jsSort (recLE [⟨"id", none⟩])
        [[("id", Value.vStr "u2")], [("id", Value.vStr "u1")]] := by
  exact (C5_sort_semantics [⟨"id", none⟩] (by decide)
    [[("id", Value.vStr "u2")], [("id", Value.vStr "u1")]]).1

/-- Claim C6: updating a record id that is absent from a registered
resource's collection fails with the record-not-found error and
returns the service state completely unchanged (in particular the
resource's record collection is exactly what it was). -/
theorem C6_update_missing_id (s : SvcState) (uri id : String)
    (data : Rec) (now : String)
    (hres : ahas s.resources uri = true)
    (hid : aget (collOf s uri) id = none) :
    updateRecord s uri id data now =
      (Except.error ("Record not found: " ++ id), s) := by
  unfold updateRecord
  rw [hres]
  rw [if_neg (by simp)]
  rw [hid]

/-- Witness for C6 at concrete inputs. -/
theorem C6_update_missing_id_witness :
    updateRecord
        ⟨"mcp://", [("mcp://users", ⟨"mcp://users", "users", none⟩)],
          [("mcp://users", [])]⟩
        "mcp://users" "nope" [("a", Value.vNum 1)] "T1" =
      (Except.error ("Record not found: " ++ "nope"),
        ⟨"mcp://", [("mcp://users", ⟨"mcp://users", "users", none⟩)],
          [("mcp://users", [])]⟩) :=
  C6_update_missing_id
    ⟨"mcp://", [("mcp://users", ⟨"mcp://users", "users", none⟩)],
      [("mcp://users", [])]⟩
    "mcp://users" "nope" [("a", Value.vNum 1)] "T1" (by decide) (by decide)

/-- Claim C7: deleting an existing record succeeds with result `true` and
removes the record from the collection; an immediately following
delete of the same id fails with the record-not-found error (and again
leaves the state unchanged). -/
theorem C7_delete_twice (s : SvcState) (uri id : String)
    (hres : ahas s.resources uri = true)
    (hid : ahas (collOf s uri) id = true) :
    ∃ s' : SvcState,
      deleteRecord s uri id = (Except.ok true, s') ∧
      ahas (collOf s' uri) id = false ∧
      deleteRecord s' uri id =
        (Except.error ("Record not found: " ++ id), s') := by
  have hcoll : collOf { s with
      data := aset s.data uri (adel (collOf s uri) id) } uri =
      adel (collOf s uri) id := by
    show (aget (aset s.data uri (adel (collOf s uri) id)) uri).getD [] = _
    rw [aget_aset_self]
    rfl
  refine ⟨{ s with data := aset s.data uri (adel (collOf s uri) id) },
    ?_, ?_, ?_⟩
  · unfold deleteRecord
    rw [hres]
    rw [if_neg (by simp)]
    rw [hid]
    rw [if_neg (by simp)]
  · rw [hcoll]
    exact ahas_adel_self _ _
  · unfold deleteRecord
    rw [hres]
    rw [if_neg (by simp)]
    rw [hcoll, ahas_adel_self]
    rw [if_pos rfl]

/-- Witness for C7 at concrete inputs. -/
theorem C7_delete_twice_witness :
    ∃ s' : SvcState,
      deleteRecord
          ⟨"mcp://", [("mcp://users", ⟨"mcp://users", "users", none⟩)],
            [("mcp://users", [("u1", [("id", Value.vStr "u1")])])]⟩
          "mcp://users" "u1" = (Except.ok true, s') ∧
      ahas (collOf s' "mcp://users") "u1" = false ∧
      deleteRecord s' "mcp://users" "u1" =
        (Except.error ("Record not found: " ++ "u1"), s') :=
  C7_delete_twice
    ⟨"mcp://", [("mcp://users", ⟨"mcp://users", "users", none⟩)],
      [("mcp://users", [("u1", [("id", Value.vStr "u1")])])]⟩
    "mcp://users" "u1" (by decide) (by decide)

/-- Claim C8: calling a tool name that matches no built-in and no
dynamically registered tool yields an error envelope — a result whose
error flag is set and whose message text contains the unknown tool
name — rather than an unhandled fault (the model of `handleCallTool`
is total). -/
theorem C8_unknown_tool_envelope (builtinResp : String → CallToolResult)
    (regs : List DynTool) (name : String)
    (h1 : builtinNames.contains name = false)
    (h2 : ∀ t ∈ regs, t.name ≠ name) :
    (callAfter builtinResp regs name).isError = true ∧
    strContainsSub (callAfter builtinResp regs name).text name = true := by
  unfold callAfter
  rw [callFrom_not_mem name regs (baseCall builtinResp) h2]
  unfold baseCall
  rw [if_neg (by
    intro hc
    rw [h1] at hc
    exact absurd hc (by decide))]
  constructor
  · rfl
  · apply strContainsSub_of_split _ _ "Error in tool ".toList
      (": " ++ ("Unknown tool: " ++ name)).toList
    show ("Error in tool " ++ name ++ ": " ++ ("Unknown tool: " ++ name)).toList = _
    simp

/-- Witness for C8 at concrete inputs. -/
theorem C8_unknown_tool_envelope_witness :
    (callAfter (fun _ => ⟨"", false⟩) [⟨"extra_tool", ⟨"", false⟩⟩]
        "mystery").isError = true ∧
    strContainsSub (callAfter (fun _ => ⟨"", false⟩)
        [⟨"extra_tool", ⟨"", false⟩⟩] "mystery").text "mystery" = true :=
  C8_unknown_tool_envelope (fun _ => ⟨"", false⟩)
    [⟨"extra_tool", ⟨"", false⟩⟩] "mystery" (by decide)
    (by intro t ht; simp at ht; rw [ht]; decide)

/-- Claim C9, implicit: whenever `deleteRecord` returns normally (does
not throw), its boolean result is `true`: every absent-id case throws
before the boolean is produced, so the advertised "whether removal
occurred" value is never `false`. -/
theorem C9_delete_ok_true (s : SvcState) (uri id : String) (b : Bool)
    (s' : SvcState) (h : deleteRecord s uri id = (Except.ok b, s')) :
    b = true := by
  unfold deleteRecord at h
  by_cases h1 : ahas s.resources uri = false
  · rw [if_pos h1] at h
    simp at h
  · rw [if_neg h1] at h
    by_cases h2 : ahas (collOf s uri) id = false
    · rw [if_pos h2] at h
      simp at h
    · rw [if_neg h2] at h
      simp only [Prod.mk.injEq, Except.ok.injEq] at h
      rw [← h.1]
      exact Bool.not_eq_false _ |>.mp h2

/-- Witness for C9 at concrete inputs. -/
theorem C9_delete_ok_true_witness :
    deleteRecord
        ⟨"mcp://", [("mcp://users", ⟨"mcp://users", "users", none⟩)],
          [("mcp://users", [("u1", [("id", Value.vStr "u1")])])]⟩
        "mcp://users" "u1" =
      (Except.ok true,
        ⟨"mcp://", [("mcp://users", ⟨"mcp://users", "users", none⟩)],
          [("mcp://users", [])]⟩) ∧
    true = true :=
  ⟨by rfl,
    C9_delete_ok_true
      ⟨"mcp://", [("mcp://users", ⟨"mcp://users", "users", none⟩)],
        [("mcp://users", [("u1", [("id", Value.vStr "u1")])])]⟩
      "mcp://users" "u1" true
      ⟨"mcp://", [("mcp://users", ⟨"mcp://users", "users", none⟩)],
        [("mcp://users", [])]⟩
      (by rfl)⟩

/-- Claim C10, implicit: `createRecord` with a data map whose `id` equals
an existing record's id silently replaces that record in place — no
duplicate-id error — so the collection keeps exactly its previous keys
(id uniqueness is preserved by overwrite, not rejection), the stored
record under that id is the new one, and every other id's record is
untouched. -/
theorem C10_create_overwrites (s : SvcState) (uri id : String)
    (data : Rec) (genId now : String) (old : Rec)
    (hres : ahas s.resources uri = true)
    (hid : aget data "id" = some (Value.vStr id))
    (hne : id ≠ "")
    (hold : aget (collOf s uri) id = some old) :
    ∃ (r : Rec) (s' : SvcState),
      createRecord s uri data genId now = (Except.ok r, s') ∧
      aget r "id" = some (Value.vStr id) ∧
      aget (collOf s' uri) id = some r ∧
      (∀ k, k ≠ id → aget (collOf s' uri) k = aget (collOf s uri) k) ∧
      (collOf s' uri).map Prod.fst = (collOf s uri).map Prod.fst := by
  have hchosen : chosenId data genId = id := by
    unfold chosenId
    rw [hid]
    simp [hne]
  refine ⟨jsSpread (jsSpread (jsSpread [("id", Value.vStr id)] data)
      [("createdAt", Value.vStr now)]) [("updatedAt", Value.vStr now)],
    { s with data := aset s.data uri (aset (collOf s uri) id
      (jsSpread (jsSpread (jsSpread [("id", Value.vStr id)] data)
        [("createdAt", Value.vStr now)]) [("updatedAt", Value.vStr now)])) },
    ?_, ?_, ?_, ?_, ?_⟩
  · unfold createRecord
    rw [hres]
    rw [if_neg (by simp)]
    rw [hchosen]
  · rw [getField_jsSpread, getField_jsSpread, getField_jsSpread, hid]
    rfl
  · show aget ((aget (aset s.data uri _) uri).getD []) _ = _
    rw [aget_aset_self]
    exact aget_aset_self _ _ _
  · intro k hk
    show aget ((aget (aset s.data uri _) uri).getD []) k = _
    rw [aget_aset_self]
    exact aget_aset_ne _ _ _ _ hk
  · show ((aget (aset s.data uri _) uri).getD []).map Prod.fst = _
    rw [aget_aset_self]
    exact aset_keys_of_ahas _ _ _ (ahas_true_of_aget_some hold)

/-- Witness for C10 at concrete inputs. -/
theorem C10_create_overwrites_witness :
    ∃ (r : Rec) (s' : SvcState),
      createRecord
          ⟨"mcp://", [("mcp://users", ⟨"mcp://users", "users", none⟩)],
            [("mcp://users", [("u1", [("id", Value.vStr "u1"),
              ("v", Value.vNum 1)])])]⟩
          "mcp://users" [("id", Value.vStr "u1"), ("v", Value.vNum 2)]
          "gen" "T1" = (Except.ok r, s') ∧
      aget r "id" = some (Value.vStr "u1") ∧
      aget (collOf s' "mcp://users") "u1" = some r ∧
      (∀ k, k ≠ "u1" →
        aget (collOf s' "mcp://users") k =
          aget (collOf
            ⟨"mcp://", [("mcp://users", ⟨"mcp://users", "users", none⟩)],
              [("mcp://users", [("u1", [("id", Value.vStr "u1"),
                ("v", Value.vNum 1)])])]⟩ "mcp://users") k) ∧
      (collOf s' "mcp://users").map Prod.fst =
        (collOf
          ⟨"mcp://", [("mcp://users", ⟨"mcp://users", "users", none⟩)],
            [("mcp://users", [("u1", [("id", Value.vStr "u1"),
              ("v", Value.vNum 1)])])]⟩ "mcp://users").map Prod.fst :=
  C10_create_overwrites
    ⟨"mcp://", [("mcp://users", ⟨"mcp://users", "users", none⟩)],
      [("mcp://users", [("u1", [("id", Value.vStr "u1"),
        ("v", Value.vNum 1)])])]⟩
    "mcp://users" "u1" [("id", Value.vStr "u1"), ("v", Value.vNum 2)]
    "gen" "T1" [("id", Value.vStr "u1"), ("v", Value.vNum 1)]
    (by decide) (by decide) (by decide) (by decide)

end MCP
